import Mathlib

/-!
# Verification of the markdown-world coordination core

Shallow embedding of the coordination core of the `markdown-world` repository:

* the Parse Dispatcher (`src/renderer/src/utils/markdownWorkerManager.ts`,
  class `MarkdownWorkerManager`), modelled as a state machine over submit /
  worker-message / worker-error / terminate events;
* the Position Mapper (`ScrollSyncMapper`), modelled by pure functions over
  the list of `{line, offsetTop}` mappings, with pixel offsets as rationals
  and source lines as integers;
* the Scroll Coordinator (`src/renderer/src/utils/scrollSyncLock.ts`,
  class `ScrollSyncLock`), modelled by a lock state plus an event-driven
  model of the shared debounce timer.

Promise settlement is made observable through an explicit settlement log:
resolving or rejecting a pending caller appends `(id, outcome)` to the log.
Timer firings are modelled as explicit events.
-/

namespace MarkdownWorld

/-! ## Parse Dispatcher (`MarkdownWorkerManager`) -/

/-- Wire format of a worker response: `{ id: number, html: string, error?: string }`.
`error = none` models the field being absent (`undefined`). -/
structure WorkerResponse where
  id : Nat
  html : String
  error : Option String
deriving DecidableEq

/-- How a pending promise settles. -/
inductive Outcome where
  | resolved (html : String)
  | rejected (message : String)
deriving DecidableEq

/-- The fixed message used when the worker-level error listener rejects
pending callers (`new Error('Worker 发生错误')`). -/
def workerFatalMessage : String := "Worker 发生错误"

/-- Settlement performed by the message listener for a pending id:
`if (error) { reject(new Error(error)) } else { resolve(html) }`.
JS truthiness: both `undefined` and the empty string are falsy, so a present
but empty `error` string resolves with `html`. -/
def decodeResponse (r : WorkerResponse) : Outcome :=
  match r.error with
  | none => .resolved r.html
  | some e => if e = "" then .resolved r.html else .rejected e

/-- Dispatcher state: `worker` (alive or torn down), the `messageId` counter,
the ids with a pending-caller entry (`pendingRequests` keys, in insertion
order), and the settlement log (observer of resolve/reject calls). -/
structure ManagerState where
  workerAlive : Bool
  messageId : Nat
  pending : List Nat
  log : List (Nat × Outcome)
deriving DecidableEq

/-- State after the constructor ran (`initWorker` created the worker). -/
def initManager : ManagerState :=
  { workerAlive := true, messageId := 0, pending := [], log := [] }

/-- Events driving the dispatcher: a `parseMarkdown` call, a worker `message`
event, a worker `error` event, and a `terminate()` call. -/
inductive MEvent where
  | submit (markdown : String)
  | message (r : WorkerResponse)
  | workerError
  | terminate
deriving DecidableEq

/-- One step of the dispatcher.

* `submit`: `parseMarkdown` throws if the worker is gone; otherwise it
  allocates `id = ++this.messageId` and records a pending entry for it.
* `message r`: the message listener settles and deletes the entry for `r.id`
  when one is pending, and does nothing otherwise.
* `workerError`: the error listener rejects every pending caller (in map
  order) and clears the map.
* `terminate`: tears down the worker and clears the map without settling. -/
def step (s : ManagerState) (e : MEvent) : ManagerState :=
  match e with
  | .submit _ =>
      if s.workerAlive then
        { s with messageId := s.messageId + 1, pending := s.pending ++ [s.messageId + 1] }
      else s
  | .message r =>
      if r.id ∈ s.pending then
        { s with pending := s.pending.erase r.id,
                 log := s.log ++ [(r.id, decodeResponse r)] }
      else s
  | .workerError =>
      { s with pending := [],
               log := s.log ++ s.pending.map fun i => (i, Outcome.rejected workerFatalMessage) }
  | .terminate =>
      { s with workerAlive := false, pending := [] }

/-- Run a sequence of dispatcher events from the freshly constructed state. -/
def run (es : List MEvent) : ManagerState :=
  es.foldl step initManager

/-- Bookkeeping invariant of the dispatcher: pending ids are distinct and
bounded by the counter, settled ids are distinct and bounded by the counter,
and no id is both pending and settled. -/
def ManagerInv (s : ManagerState) : Prop :=
  s.pending.Nodup ∧
  (∀ i ∈ s.pending, i ≤ s.messageId) ∧
  (s.log.map Prod.fst).Nodup ∧
  (∀ i ∈ s.log.map Prod.fst, i ≤ s.messageId) ∧
  ∀ i ∈ s.pending, i ∉ s.log.map Prod.fst

/-! ## Position Mapper (`ScrollSyncMapper`) -/

/-- One mapping-table entry `{ line, offsetTop }`.  The `element` field of the
source (a DOM handle) carries no information used by the lookups and is
dropped.  Offsets are rationals: stored offsets are whole numbers (the build
rounds them), but scroll queries may be fractional. -/
structure LineMapping where
  line : Int
  offsetTop : ℚ
deriving DecidableEq

/-- JavaScript `Math.round`: round half towards positive infinity. -/
def jsRound (q : ℚ) : Int := ⌊q + 1 / 2⌋

/-- One element scanned by `buildMappingTable`.  `lineAttr` is the parsed
`data-line` attribute: `none` collapses the two rejection paths of the source
(attribute missing / empty, and `parseInt` returning `NaN`).  `rawTop` is
`elemRect.top - containerRect.top + container.scrollTop` before rounding. -/
structure ScanItem where
  lineAttr : Option Int
  rawTop : ℚ

/-- The entry pushed for one scanned element:
`offsetTop = Math.max(0, Math.round(rawTop))`. -/
def scanMapping (it : ScanItem) : Option LineMapping :=
  match it.lineAttr with
  | none => none
  | some n => some { line := n, offsetTop := ((max 0 (jsRound it.rawTop) : Int) : ℚ) }

/-- The sort order used by `this.mappings.sort((a, b) => a.line - b.line)`. -/
def lineLe (a b : LineMapping) : Prop := a.line ≤ b.line

instance : DecidableRel lineLe := fun a b => inferInstanceAs (Decidable (a.line ≤ b.line))

instance : IsTotal LineMapping lineLe := ⟨fun a b => Int.le_total a.line b.line⟩

instance : IsTrans LineMapping lineLe := ⟨fun _ _ _ h h' => le_trans h h'⟩

/-- The mapping table built from the scanned elements: keep the elements with
a parsed line, then sort by line.  `Array.prototype.sort` is stable, so the
stable `insertionSort` models it exactly. -/
def buildMappings (items : List ScanItem) : List LineMapping :=
  (items.filterMap scanMapping).insertionSort lineLe

/-- Mapper state: the table plus whether `setPreviewContainer` was called. -/
structure MapperState where
  mappings : List LineMapping
  hasContainer : Bool
deriving DecidableEq

namespace ScrollSyncMapper

/-- Freshly constructed mapper. -/
def init : MapperState := { mappings := [], hasContainer := false }

/-- `setPreviewContainer(container)`. -/
def setPreviewContainer (s : MapperState) : MapperState := { s with hasContainer := true }

/-- `buildMappingTable()`: warns and keeps the old table when no container is
set; otherwise replaces the table with the freshly scanned, sorted one. -/
def buildMappingTable (s : MapperState) (items : List ScanItem) : MapperState :=
  if s.hasContainer then { s with mappings := buildMappings items } else s

/-- `clear()`: empties the table. -/
def clear (s : MapperState) : MapperState := { s with mappings := [] }

end ScrollSyncMapper

/-- The binary-search loop of `findMappingByLine`.  `left`/`right` are JS
numbers, kept as integers because `right` may become `-1` in general; the
`m[right]` read after the loop would then be `undefined`, modelled as `none`.
`(left + right) / 2` is `Math.floor((left + right) / 2)`; `Int` division in
this development is euclidean, which is floor division for the divisor 2. -/
def bsLine (m : List LineMapping) (target : Int) (left right : Int) : Option LineMapping :=
  if _h : left ≤ right then
    let mid := (left + right) / 2
    match m[mid.toNat]? with
    | none => none
    | some mapping =>
      if mapping.line = target then some mapping
      else if mapping.line < target then bsLine m target (mid + 1) right
      else bsLine m target left (mid - 1)
  else if right < 0 then none else m[right.toNat]?
termination_by (right + 1 - left).toNat
decreasing_by
  · omega
  · omega

/-- `findMappingByLine(line)`: `null` on the empty table; clamp to the first
entry when `line <= first.line`, to the last when `line >= last.line`;
otherwise binary-search. -/
def findMappingByLine : List LineMapping → Int → Option LineMapping
  | [], _ => none
  | first :: rest, target =>
    if target ≤ first.line then some first
    else
      let last := (first :: rest).getLastD first
      if last.line ≤ target then some last
      else bsLine (first :: rest) target 0 (((first :: rest).length : Int) - 1)

/-- The linear scan of `findLineByScrollTop` over consecutive entry pairs:
the first pair with `current.offsetTop <= scrollTop < next.offsetTop` yields
the linearly interpolated, rounded line. -/
def interpScan (q : ℚ) : List LineMapping → Option Int
  | c :: n :: rest =>
      if c.offsetTop ≤ q ∧ q < n.offsetTop then
        some (jsRound ((c.line : ℚ) +
          (q - c.offsetTop) / (n.offsetTop - c.offsetTop) * ((n.line : ℚ) - (c.line : ℚ))))
      else interpScan q (n :: rest)
  | _ => none

/-- `findLineByScrollTop(scrollTop)`: `1` on the empty table; clamp to the
first line when `scrollTop <= first.offsetTop`, to the last line when
`scrollTop >= last.offsetTop`; otherwise scan for the bracketing pair and
interpolate, falling back to the first line when no pair matches. -/
def findLineByScrollTop : List LineMapping → ℚ → Int
  | [], _ => 1
  | first :: rest, q =>
    if q ≤ first.offsetTop then first.line
    else
      let last := (first :: rest).getLastD first
      if last.offsetTop ≤ q then last.line
      else (interpScan q (first :: rest)).getD first.line

/-! ## Scroll Coordinator (`ScrollSyncLock`) -/

/-- The two non-null scroll sources; the TS type `ScrollSource` also admits
`null`, modelled as `Option Src` below. -/
inductive Src where
  | editor
  | preview
deriving DecidableEq

/-- Lock state: `currentSource` is the holder (`null` = `none`).  The
hold-expiry timer only re-runs `release`, so its firing is represented by a
`release` call and the timer handle itself is not part of the state. -/
structure LockState where
  currentSource : Option Src
deriving DecidableEq

/-- Freshly constructed lock. -/
def initLock : LockState := { currentSource := none }

/-- `tryAcquire(source)`: succeeds iff there is no holder or the holder is
already `source`; on success `acquireLock` sets `currentSource = source`.
Returns the JS boolean alongside the next state. -/
def tryAcquire (s : LockState) (src : Option Src) : Bool × LockState :=
  if s.currentSource = none ∨ s.currentSource = src then
    (true, { currentSource := src })
  else
    (false, s)

/-- `release(source)`: only the current holder clears the lock. -/
def release (s : LockState) (src : Option Src) : LockState :=
  if s.currentSource = src then { currentSource := none } else s

/-- Coordinator state for the debounce discipline: the lock, the single
shared debounce timer (`debounceTimer`) holding the scheduled source and an
identifier for the scheduled callback, and the log of callbacks that ran.
The `Option` type of `debounceTimer` is the model of "at most one debounced
action is pending at any time". -/
structure CoordState where
  lock : LockState
  debounceTimer : Option (Option Src × Nat)
  executed : List Nat
deriving DecidableEq

/-- Freshly constructed coordinator. -/
def initCoord : CoordState := { lock := initLock, debounceTimer := none, executed := [] }

/-- Events for the debounce model: a `debounce(source, callback)` call
(callbacks named by numbers), the firing of the debounce timer after the
quiet period, and a `release(source)` call (including the delayed release
the fired callback schedules). -/
inductive CoordEvent where
  | debounceCall (src : Option Src) (action : Nat)
  | debounceFire
  | releaseCall (src : Option Src)
deriving DecidableEq

/-- One coordinator step.

* `debounceCall`: `debounce` clears any previous debounce timer and schedules
  the new callback on the single shared timer.
* `debounceFire`: the timer callback runs `tryAcquire(source)` and, only on
  success, the scheduled action; either way the timer slot is cleared.
* `releaseCall`: forwards to `release`. -/
def coordStep (s : CoordState) (e : CoordEvent) : CoordState :=
  match e with
  | .debounceCall src a => { s with debounceTimer := some (src, a) }
  | .debounceFire =>
      match s.debounceTimer with
      | none => s
      | some (src, a) =>
          let r := tryAcquire s.lock src
          if r.1 then
            { lock := r.2, debounceTimer := none, executed := s.executed ++ [a] }
          else
            { s with lock := r.2, debounceTimer := none }
  | .releaseCall src => { s with lock := release s.lock src }

/-- Run a sequence of coordinator events from the freshly constructed state. -/
def coordRun (es : List CoordEvent) : CoordState :=
  es.foldl coordStep initCoord

/-! ## Dispatcher invariants -/

theorem managerInv_init : ManagerInv initManager := by
  simp [ManagerInv, initManager]

theorem managerInv_step (s : ManagerState) (e : MEvent) (h : ManagerInv s) :
    ManagerInv (step s e) := by
  obtain ⟨h1, h2, h3, h4, h5⟩ := h
  cases e with
  | submit md =>
    simp only [step]
    split
    · refine ⟨?_, ?_, h3, ?_, ?_⟩
      · rw [List.nodup_append]
        refine ⟨h1, List.nodup_singleton _, fun i hi hj => ?_⟩
        have := h2 i hi
        simp only [List.mem_singleton] at hj
        omega
      · intro i hi
        rcases List.mem_append.1 hi with hold | hnew
        · exact le_trans (h2 i hold) (Nat.le_succ _)
        · simp only [List.mem_singleton] at hnew
          show i ≤ s.messageId + 1
          omega
      · intro i hi
        exact le_trans (h4 i hi) (Nat.le_succ _)
      · intro i hi
        rcases List.mem_append.1 hi with hold | hnew
        · exact h5 i hold
        · simp only [List.mem_singleton] at hnew
          intro hc
          have := h4 i hc
          omega
    · exact ⟨h1, h2, h3, h4, h5⟩
  | message r =>
    simp only [step]
    split
    case isTrue hmem =>
      refine ⟨h1.erase _, ?_, ?_, ?_, ?_⟩
      · intro i hi
        exact h2 i (List.mem_of_mem_erase hi)
      · rw [List.map_append, List.nodup_append]
        refine ⟨h3, by simp, fun i hi hj => ?_⟩
        simp only [List.map_cons, List.map_nil, List.mem_singleton] at hj
        subst hj
        exact h5 r.id hmem hi
      · intro i hi
        rw [List.map_append] at hi
        rcases List.mem_append.1 hi with hold | hnew
        · exact h4 i hold
        · simp only [List.map_cons, List.map_nil, List.mem_singleton] at hnew
          subst hnew
          exact h2 r.id hmem
      · intro i hi
        have hi' := (h1.mem_erase_iff).1 hi
        rw [List.map_append]
        intro hc
        rcases List.mem_append.1 hc with hold | hnew
        · exact h5 i hi'.2 hold
        · simp only [List.map_cons, List.map_nil, List.mem_singleton] at hnew
          exact hi'.1 hnew
    case isFalse hmem =>
      exact ⟨h1, h2, h3, h4, h5⟩
  | workerError =>
    simp only [step]
    refine ⟨List.nodup_nil, ?_, ?_, ?_, ?_⟩
    · intro i hi
      exact absurd hi (List.not_mem_nil i)
    · rw [List.map_append, List.nodup_append]
      refine ⟨h3, ?_, fun i hi hj => ?_⟩
      · rw [List.map_map]
        exact h1.map fun a b hab => by simpa using hab
      · rw [List.map_map] at hj
        simp only [List.mem_map, Function.comp] at hj
        obtain ⟨j, hjp, hji⟩ := hj
        subst hji
        exact h5 j hjp hi
    · intro i hi
      rw [List.map_append] at hi
      rcases List.mem_append.1 hi with hold | hnew
      · exact h4 i hold
      · rw [List.map_map] at hnew
        simp only [List.mem_map, Function.comp] at hnew
        obtain ⟨j, hjp, hji⟩ := hnew
        subst hji
        exact h2 j hjp
    · intro i hi
      exact absurd hi (List.not_mem_nil i)
  | terminate =>
    simp only [step]
    refine ⟨List.nodup_nil, ?_, h3, h4, ?_⟩
    · intro i hi
      exact absurd hi (List.not_mem_nil i)
    · intro i hi
      exact absurd hi (List.not_mem_nil i)

theorem managerInv_foldl (es : List MEvent) (s : ManagerState) (h : ManagerInv s) :
    ManagerInv (es.foldl step s) := by
  induction es generalizing s with
  | nil => exact h
  | cons e es ih => exact ih (step s e) (managerInv_step s e h)

theorem managerInv_run (es : List MEvent) : ManagerInv (run es) :=
  managerInv_foldl es initManager managerInv_init

/-- Every settlement logged along a worker-error-free trace comes from a
worker message event carrying exactly that id and payload. -/
theorem log_provenance (es : List MEvent) (s : ManagerState)
    (hno : MEvent.workerError ∉ es) :
    ∀ entry ∈ (es.foldl step s).log,
      entry ∈ s.log ∨ ∃ r, MEvent.message r ∈ es ∧ entry = (r.id, decodeResponse r) := by
  induction es generalizing s with
  | nil =>
    intro entry h
    exact Or.inl h
  | cons e es ih =>
    intro entry hmem
    have hno' : MEvent.workerError ∉ es := fun hc => hno (List.mem_cons_of_mem _ hc)
    rcases ih (step s e) hno' entry hmem with hstep | ⟨r, hr, he⟩
    · cases e with
      | submit md =>
        simp only [step] at hstep
        split at hstep
        · exact Or.inl hstep
        · exact Or.inl hstep
      | message r' =>
        simp only [step] at hstep
        split at hstep
        · simp only [List.mem_append, List.mem_singleton] at hstep
          rcases hstep with hold | hnew
          · exact Or.inl hold
          · exact Or.inr ⟨r', List.mem_cons_self _ _, hnew⟩
        · exact Or.inl hstep
      | workerError =>
        exact absurd (List.mem_cons_self _ _) hno
      | terminate =>
        exact Or.inl hstep
    · exact Or.inr ⟨r, List.mem_cons_of_mem _ hr, he⟩

/-! ## Claim theorems: Parse Dispatcher -/

/-- C1 counterexample: after one submission, id `1` has a pending entry;
`terminate()` empties the bookkeeping, yet the settlement log stays empty —
the pending promise was neither resolved nor rejected, so the claim that
`terminate()` clears pending callers *by rejecting them* is false. -/
theorem terminate_drops_pending_cex :
    (run [MEvent.submit "x"]).pending = [1] ∧
    (step (run [MEvent.submit "x"]) MEvent.terminate).pending = [] ∧
    (step (run [MEvent.submit "x"]) MEvent.terminate).log = [] := by
  decide

/-- C1 (amended): `terminate()` is idempotent and clears all pending
bookkeeping entries, but it settles none of the pending promises: the
settlement log is unchanged, so pending callers are left unsettled. -/
theorem terminate_idempotent_clears_pending (s : ManagerState) :
    step (step s MEvent.terminate) MEvent.terminate = step s MEvent.terminate ∧
    (step s MEvent.terminate).pending = [] ∧
    (step s MEvent.terminate).log = s.log ∧
    (step s MEvent.terminate).workerAlive = false :=
  ⟨rfl, rfl, rfl, rfl⟩

/-- C3 counterexample: a response whose `error` field is present but equal to
the empty string settles its caller by *resolving* with the html (JS
truthiness: `if (error)` treats `''` as absent), not by rejecting with that
message — so the claim as stated ("errorMessage present rejects") is false. -/
theorem empty_error_string_resolves_cex :
    run [MEvent.submit "x", MEvent.message ⟨1, "h", some ""⟩] =
      { workerAlive := true, messageId := 1, pending := [], log := [(1, Outcome.resolved "h")] } ∧
    Outcome.resolved "h" ≠ Outcome.rejected "" := by
  decide

/-- C3 (amended): along every trace of submissions and worker responses
(distinct auto-assigned ids; any arrival order; no worker-fatal event), every
settlement is at-most-once per id (the logged ids are distinct), every logged
settlement comes from the response event bearing exactly that id with that
response's decoded payload (a *truthy*, i.e. non-empty, `error` rejects with
that message, otherwise the response resolves with its `html`; no cross-talk
between ids), and a response arriving for a pending id settles exactly that
id with its own payload and removes its bookkeeping entry. -/
theorem dispatcher_settlement_correlation (es : List MEvent)
    (hno : MEvent.workerError ∉ es) :
    ((run es).log.map Prod.fst).Nodup ∧
    (∀ entry ∈ (run es).log,
      ∃ r : WorkerResponse, MEvent.message r ∈ es ∧ entry = (r.id, decodeResponse r)) ∧
    ∀ r : WorkerResponse, r.id ∈ (run es).pending →
      (run (es ++ [MEvent.message r])).log = (run es).log ++ [(r.id, decodeResponse r)] ∧
      (run (es ++ [MEvent.message r])).pending = (run es).pending.erase r.id := by
  refine ⟨(managerInv_run es).2.2.1, ?_, ?_⟩
  · intro entry hentry
    rcases log_provenance es initManager hno entry hentry with hinit | h
    · simp [initManager] at hinit
    · exact h
  · intro r hr
    have hrun : run (es ++ [MEvent.message r]) = step (run es) (MEvent.message r) := by
      simp [run, List.foldl_append]
    rw [hrun]
    simp [step, hr]

/-- Witness for C3 at a concrete out-of-order trace: two submissions, then
the response for id 2 arrives first. -/
theorem dispatcher_settlement_correlation_witness :
    ((run [MEvent.submit "a", MEvent.submit "b",
        MEvent.message ⟨2, "B", none⟩]).log.map Prod.fst).Nodup ∧
    (∀ entry ∈ (run [MEvent.submit "a", MEvent.submit "b",
        MEvent.message ⟨2, "B", none⟩]).log,
      ∃ r : WorkerResponse,
        MEvent.message r ∈ [MEvent.submit "a", MEvent.submit "b",
          MEvent.message ⟨2, "B", none⟩] ∧ entry = (r.id, decodeResponse r)) ∧
    ∀ r : WorkerResponse,
      r.id ∈ (run [MEvent.submit "a", MEvent.submit "b",
        MEvent.message ⟨2, "B", none⟩]).pending →
      (run ([MEvent.submit "a", MEvent.submit "b", MEvent.message ⟨2, "B", none⟩] ++
          [MEvent.message r])).log =
        (run [MEvent.submit "a", MEvent.submit "b",
          MEvent.message ⟨2, "B", none⟩]).log ++ [(r.id, decodeResponse r)] ∧
      (run ([MEvent.submit "a", MEvent.submit "b", MEvent.message ⟨2, "B", none⟩] ++
          [MEvent.message r])).pending =
        (run [MEvent.submit "a", MEvent.submit "b",
          MEvent.message ⟨2, "B", none⟩]).pending.erase r.id :=
  dispatcher_settlement_correlation
    [MEvent.submit "a", MEvent.submit "b", MEvent.message ⟨2, "B", none⟩] (by decide)

/-- C8: the worker-level error listener rejects every caller pending at that
moment (each gets a settlement with the fixed worker-fatal message) and
clears the pending bookkeeping, so no promise pending at the event is left
permanently pending. -/
theorem worker_error_rejects_all_pending (s : ManagerState) :
    (step s MEvent.workerError).pending = [] ∧
    (step s MEvent.workerError).log =
      s.log ++ s.pending.map (fun i => (i, Outcome.rejected workerFatalMessage)) ∧
    ∀ i ∈ s.pending,
      (i, Outcome.rejected workerFatalMessage) ∈ (step s MEvent.workerError).log := by
  refine ⟨rfl, rfl, ?_⟩
  intro i hi
  simp only [step]
  exact List.mem_append_right _ (List.mem_map_of_mem _ hi)

/-- Witness for C8: a state with two pending callers; both bookkeeping
entries are cleared and caller 1's rejection is in the log. -/
theorem worker_error_rejects_all_pending_witness :
    (step { workerAlive := true, messageId := 2, pending := [1, 2], log := [] }
      MEvent.workerError).pending = [] ∧
    (1, Outcome.rejected workerFatalMessage) ∈
      (step { workerAlive := true, messageId := 2, pending := [1, 2], log := [] }
        MEvent.workerError).log := by
  have h := worker_error_rejects_all_pending
    { workerAlive := true, messageId := 2, pending := [1, 2], log := [] }
  exact ⟨h.1, h.2.2 1 (by decide)⟩

/-- C9: a worker response whose id has no pending bookkeeping entry settles
nothing and leaves the whole dispatcher state (counter, pending map, log)
unchanged. -/
theorem stale_message_frame_noop (s : ManagerState) (r : WorkerResponse)
    (h : r.id ∉ s.pending) : step s (MEvent.message r) = s := by
  simp only [step, if_neg h]

/-- Witness for C9: a response for the never-issued id 5 on the fresh state. -/
theorem stale_message_frame_noop_witness :
    step initManager (MEvent.message ⟨5, "h", none⟩) = initManager :=
  stale_message_frame_noop initManager ⟨5, "h", none⟩ (by decide)

/-! ## Claim theorems: Position Mapper empty-table behaviour -/

/-- C2 counterexample: on the empty table `findMappingByLine` returns `null`
(`none`), not the degenerate entry `{sourceLine: 1, pixelOffset: 0}` the
claim states. -/
theorem findMappingByLine_empty_cex :
    findMappingByLine [] 5 = none ∧
    findMappingByLine [] 5 ≠ some { line := 1, offsetTop := 0 } := by
  exact ⟨rfl, by decide⟩

/-- C2 (amended): on the empty table — after `clear()` or before any
successful rebuild — `findMappingByLine` returns `null` for every input and
`findLineByScrollTop` returns `1` for every input; neither raises (both are
total functions). -/
theorem empty_table_lookup_defaults :
    (∀ line : Int, findMappingByLine [] line = none) ∧
    (∀ q : ℚ, findLineByScrollTop [] q = 1) ∧
    (∀ s : MapperState, (ScrollSyncMapper.clear s).mappings = []) ∧
    ScrollSyncMapper.init.mappings = [] :=
  ⟨fun _ => rfl, fun _ => rfl, fun _ => rfl, rfl⟩

/-! ## Claim theorems: Scroll lock -/

/-- C4: `tryAcquire(source)` succeeds and sets the holder to `source` iff the
current holder is `null` or already `source`, and otherwise returns `false`
leaving the state unchanged (it cannot throw: it is a total function);
`release(source)` clears the holder exactly when `source` is the holder and
is a no-op otherwise.  The final conjunct is the claim's scenario:
`tryAcquire('editor')` succeeds, a subsequent `tryAcquire('preview')` fails
before release, and after `release('editor')` a `tryAcquire('preview')`
succeeds. -/
theorem scroll_lock_acquire_release_spec (s : LockState) (src : Option Src) :
    (((tryAcquire s src).1 = true ∧ (tryAcquire s src).2.currentSource = src) ↔
      (s.currentSource = none ∨ s.currentSource = src)) ∧
    (¬(s.currentSource = none ∨ s.currentSource = src) → tryAcquire s src = (false, s)) ∧
    (s.currentSource = src → (release s src).currentSource = none) ∧
    (s.currentSource ≠ src → release s src = s) ∧
    ((tryAcquire initLock (some Src.editor)).1 = true ∧
      (tryAcquire (tryAcquire initLock (some Src.editor)).2 (some Src.preview)).1 = false ∧
      (tryAcquire (release (tryAcquire (tryAcquire initLock (some Src.editor)).2
          (some Src.preview)).2 (some Src.editor)) (some Src.preview)).1 = true ∧
      (tryAcquire (release (tryAcquire (tryAcquire initLock (some Src.editor)).2
          (some Src.preview)).2 (some Src.editor)) (some Src.preview)).2.currentSource =
        some Src.preview) := by
  refine ⟨⟨?_, ?_⟩, ?_, ?_, ?_, by decide⟩
  · rintro ⟨hb, _⟩
    by_contra hc
    rw [tryAcquire, if_neg hc] at hb
    exact absurd hb Bool.false_ne_true
  · intro hcond
    rw [tryAcquire, if_pos hcond]
    exact ⟨rfl, rfl⟩
  · intro hc
    rw [tryAcquire, if_neg hc]
  · intro hcur
    rw [release, if_pos hcur]
  · intro hne
    rw [release, if_neg hne]

/-- Witness for C4: with `editor` holding the lock, `tryAcquire('preview')`
fails without modifying the state, and `release('editor')` clears the
holder. -/
theorem scroll_lock_acquire_release_witness :
    tryAcquire { currentSource := some Src.editor } (some Src.preview) =
      (false, { currentSource := some Src.editor }) ∧
    (release { currentSource := some Src.editor } (some Src.editor)).currentSource = none := by
  have h := scroll_lock_acquire_release_spec
    { currentSource := some Src.editor } (some Src.preview)
  have h' := scroll_lock_acquire_release_spec
    { currentSource := some Src.editor } (some Src.editor)
  exact ⟨h.2.1 (by decide), h'.2.2.1 rfl⟩

/-! ## Claim theorems: mapping-table rebuild (C7) -/

/-- C7 counterexample: two scanned elements whose pixel offsets decrease as
their lines increase.  The rebuilt table is sorted by line only, so it is
*not* non-decreasing in `pixelOffset` — the sort comparator
`(a, b) => a.line - b.line` never looks at offsets. -/
theorem buildMappings_offset_not_monotone_cex :
    buildMappings [⟨some 1, 100⟩, ⟨some 2, 0⟩] =
      [{ line := 1, offsetTop := 100 }, { line := 2, offsetTop := 0 }] ∧
    ¬((100 : ℚ) ≤ (0 : ℚ)) := by
  constructor
  · norm_num [buildMappings, scanMapping, jsRound, List.filterMap, List.insertionSort,
      List.orderedInsert, lineLe]
  · norm_num

/-- C7 (amended): after every rebuild the stored sequence is non-decreasing
in `sourceLine` and is a permutation of the scanned line-annotated entries,
with ties on `sourceLine` kept in scan order (stable sort: for every line
value, filtering the table yields exactly the scan-order occurrences).
Monotonicity of `pixelOffset` is NOT guaranteed for arbitrary scanned
geometry.  When the container is set, `buildMappingTable` stores exactly
this sequence. -/
theorem buildMappings_sorted_perm_stable (items : List ScanItem) :
    (buildMappings items).Pairwise lineLe ∧
    (buildMappings items).Perm (items.filterMap scanMapping) ∧
    (∀ k : Int, (buildMappings items).filter (fun e => decide (e.line = k)) =
      (items.filterMap scanMapping).filter (fun e => decide (e.line = k))) ∧
    ∀ st : MapperState, st.hasContainer = true →
      (ScrollSyncMapper.buildMappingTable st items).mappings = buildMappings items := by
  refine ⟨List.sorted_insertionSort lineLe _, List.perm_insertionSort lineLe _, ?_, ?_⟩
  · intro k
    have hall : ∀ e ∈ (items.filterMap scanMapping).filter
        (fun e => decide (e.line = k)), e.line = k := by
      intro e he
      have hp := (List.mem_filter.1 he).2
      simpa using hp
    have hpair : ((items.filterMap scanMapping).filter
        (fun e => decide (e.line = k))).Pairwise lineLe := by
      rw [List.pairwise_iff_get]
      intro i j _
      unfold lineLe
      rw [hall _ (List.get_mem _ _ _), hall _ (List.get_mem _ _ _)]
    have hsubl : List.Sublist
        ((items.filterMap scanMapping).filter (fun e => decide (e.line = k)))
        (items.filterMap scanMapping) := List.filter_sublist _
    have h1 : List.Sublist
        ((items.filterMap scanMapping).filter (fun e => decide (e.line = k)))
        (buildMappings items) :=
      List.sublist_insertionSort hpair hsubl
    have hfix : ((items.filterMap scanMapping).filter
        (fun e => decide (e.line = k))).filter (fun e => decide (e.line = k)) =
        (items.filterMap scanMapping).filter (fun e => decide (e.line = k)) := by
      rw [List.filter_eq_self]
      intro e he
      exact (List.mem_filter.1 he).2
    have h2 : List.Sublist
        ((items.filterMap scanMapping).filter (fun e => decide (e.line = k)))
        ((buildMappings items).filter (fun e => decide (e.line = k))) := by
      have h2' := h1.filter (fun e => decide (e.line = k))
      rwa [hfix] at h2'
    have hlen : ((buildMappings items).filter (fun e => decide (e.line = k))).length =
        ((items.filterMap scanMapping).filter (fun e => decide (e.line = k))).length :=
      ((List.perm_insertionSort lineLe _).filter _).length_eq
    exact (h2.eq_of_length hlen.symm).symm
  · intro st hst
    simp [ScrollSyncMapper.buildMappingTable, hst]

/-- Witness for C7 at a concrete scan: two out-of-order lines get sorted, and
with a container set `buildMappingTable` stores that table. -/
theorem buildMappings_sorted_perm_stable_witness :
    (buildMappings [⟨some 5, 10⟩, ⟨some 3, 20⟩]).Pairwise lineLe ∧
    (ScrollSyncMapper.buildMappingTable ⟨[], true⟩ [⟨some 5, 10⟩, ⟨some 3, 20⟩]).mappings =
      buildMappings [⟨some 5, 10⟩, ⟨some 3, 20⟩] := by
  have h := buildMappings_sorted_perm_stable [⟨some 5, 10⟩, ⟨some 3, 20⟩]
  exact ⟨h.1, h.2.2.2 ⟨[], true⟩ rfl⟩

/-! ## Claim theorems: shared debounce timer (C10) -/

/-- Steps other than a debounce-timer firing never run a callback. -/
theorem coordStep_executed_of_ne_fire (s : CoordState) (e : CoordEvent)
    (he : e ≠ CoordEvent.debounceFire) : (coordStep s e).executed = s.executed := by
  cases e with
  | debounceCall src a => rfl
  | debounceFire => exact absurd rfl he
  | releaseCall src => rfl

/-- A callback id that is neither executed nor pending stays so across any
step that does not debounce it again. -/
theorem coordAvoid_step (a : Nat) (s : CoordState) (e : CoordEvent)
    (hexec : a ∉ s.executed) (htimer : ∀ src, s.debounceTimer ≠ some (src, a))
    (he : ∀ src, e ≠ CoordEvent.debounceCall src a) :
    a ∉ (coordStep s e).executed ∧
      ∀ src, (coordStep s e).debounceTimer ≠ some (src, a) := by
  cases e with
  | debounceCall src b =>
    refine ⟨hexec, fun src' hc => ?_⟩
    simp only [coordStep, Option.some.injEq, Prod.mk.injEq] at hc
    exact he src' (by rw [hc.1, hc.2])
  | debounceFire =>
    rcases ht : s.debounceTimer with _ | ⟨src, b⟩
    · simp only [coordStep, ht]
      exact ⟨hexec, fun src hc => by cases hc⟩
    · have hb : b ≠ a := fun hba => htimer src (by rw [ht, hba])
      by_cases hacq : (tryAcquire s.lock src).1 = true
      · simp only [coordStep, ht, hacq, if_true]
        refine ⟨fun hc => ?_, fun src' hc => by simp at hc⟩
        rcases List.mem_append.1 hc with hold | hnew
        · exact hexec hold
        · simp only [List.mem_singleton] at hnew
          exact hb hnew.symm
      · simp only [coordStep, ht, hacq, if_false]
        exact ⟨hexec, fun src' hc => by simp at hc⟩
  | releaseCall src =>
    exact ⟨hexec, htimer⟩

/-- Trace version of `coordAvoid_step`. -/
theorem coordAvoid_foldl (a : Nat) (es : List CoordEvent) (s : CoordState)
    (hexec : a ∉ s.executed) (htimer : ∀ src, s.debounceTimer ≠ some (src, a))
    (he : ∀ src, CoordEvent.debounceCall src a ∉ es) :
    a ∉ (es.foldl coordStep s).executed ∧
      ∀ src, (es.foldl coordStep s).debounceTimer ≠ some (src, a) := by
  induction es generalizing s with
  | nil => exact ⟨hexec, htimer⟩
  | cons e es ih =>
    have he1 : ∀ src, e ≠ CoordEvent.debounceCall src a := by
      intro src hc
      exact he src (hc ▸ List.mem_cons_self _ _)
    have hstep := coordAvoid_step a s e hexec htimer he1
    exact ih (coordStep s e) hstep.1 hstep.2
      fun src hc => he src (List.mem_cons_of_mem _ hc)

/-- No callback runs along a fire-free trace. -/
theorem coordExec_foldl_of_no_fire (es : List CoordEvent) (s : CoordState)
    (hnf : CoordEvent.debounceFire ∉ es) :
    (es.foldl coordStep s).executed = s.executed := by
  induction es generalizing s with
  | nil => rfl
  | cons e es ih =>
    have h1 : e ≠ CoordEvent.debounceFire := by
      intro hc
      exact hnf (hc ▸ List.mem_cons_self _ _)
    rw [List.foldl_cons, ih (coordStep s e) fun hc => hnf (List.mem_cons_of_mem _ hc),
      coordStep_executed_of_ne_fire s e h1]

/-- C10: `debounce` keeps a single shared timer for both sources.  If
`debounce(s1, a1)` is followed — before the timer fires — by
`debounce(s2, a2)` (the sources may differ), and `a1` is not debounced again
anywhere else in the trace, then `a1` never runs and is never pending again:
it was cancelled by the second call.  That at most one debounced action is
pending at any time is structural: `CoordState.debounceTimer` is a single
`Option` slot written by every `debounce` call. -/
theorem debounce_cancels_previous_action
    (es1 mid es3 : List CoordEvent) (s1 s2 : Option Src) (a1 a2 : Nat)
    (h1 : ∀ src, CoordEvent.debounceCall src a1 ∉ es1)
    (hmid : CoordEvent.debounceFire ∉ mid)
    (ha2 : a2 ≠ a1)
    (h3 : ∀ src, CoordEvent.debounceCall src a1 ∉ es3) :
    a1 ∉ (coordRun (es1 ++ [CoordEvent.debounceCall s1 a1] ++ mid ++
        [CoordEvent.debounceCall s2 a2] ++ es3)).executed ∧
    ∀ src, (coordRun (es1 ++ [CoordEvent.debounceCall s1 a1] ++ mid ++
        [CoordEvent.debounceCall s2 a2] ++ es3)).debounceTimer ≠ some (src, a1) := by
  have hrun : coordRun (es1 ++ [CoordEvent.debounceCall s1 a1] ++ mid ++
      [CoordEvent.debounceCall s2 a2] ++ es3) =
      es3.foldl coordStep (coordStep (mid.foldl coordStep
        (coordStep (es1.foldl coordStep initCoord) (CoordEvent.debounceCall s1 a1)))
        (CoordEvent.debounceCall s2 a2)) := by
    simp [coordRun, List.foldl_append]
  rw [hrun]
  have hA := coordAvoid_foldl a1 es1 initCoord (by simp [initCoord])
    (by simp [initCoord]) h1
  -- the first debounce call leaves the executed log untouched
  have hB : a1 ∉ (coordStep (es1.foldl coordStep initCoord)
      (CoordEvent.debounceCall s1 a1)).executed := by
    rw [coordStep_executed_of_ne_fire _ _ (by simp)]
    exact hA.1
  -- the fire-free middle segment runs nothing
  have hC : a1 ∉ (mid.foldl coordStep (coordStep (es1.foldl coordStep initCoord)
      (CoordEvent.debounceCall s1 a1))).executed := by
    rw [coordExec_foldl_of_no_fire mid _ hmid]
    exact hB
  -- the second debounce call overwrites the single shared timer slot
  have hD1 : a1 ∉ (coordStep (mid.foldl coordStep
      (coordStep (es1.foldl coordStep initCoord) (CoordEvent.debounceCall s1 a1)))
      (CoordEvent.debounceCall s2 a2)).executed := by
    rw [coordStep_executed_of_ne_fire _ _ (by simp)]
    exact hC
  have hD2 : ∀ src, (coordStep (mid.foldl coordStep
      (coordStep (es1.foldl coordStep initCoord) (CoordEvent.debounceCall s1 a1)))
      (CoordEvent.debounceCall s2 a2)).debounceTimer ≠ some (src, a1) := by
    intro src hc
    simp only [coordStep, Option.some.injEq, Prod.mk.injEq] at hc
    exact ha2 hc.2
  exact coordAvoid_foldl a1 es3 _ hD1 hD2 h3

/-- Witness for C10: `debounce('editor', action 1)` immediately followed by
`debounce('preview', action 2)`, then the timer fires: action 2 runs,
action 1 never does. -/
theorem debounce_cancels_previous_action_witness :
    1 ∉ (coordRun ([] ++ [CoordEvent.debounceCall (some Src.editor) 1] ++ [] ++
        [CoordEvent.debounceCall (some Src.preview) 2] ++
        [CoordEvent.debounceFire])).executed ∧
    ∀ src, (coordRun ([] ++ [CoordEvent.debounceCall (some Src.editor) 1] ++ [] ++
        [CoordEvent.debounceCall (some Src.preview) 2] ++
        [CoordEvent.debounceFire])).debounceTimer ≠ some (src, 1) :=
  debounce_cancels_previous_action [] [] [CoordEvent.debounceFire]
    (some Src.editor) (some Src.preview) 1 2
    (fun src => List.not_mem_nil _) (List.not_mem_nil _) (by decide)
    (fun src hc => by simp at hc)

/-! ## Lookup correctness lemmas -/

/-- `mappings[mappings.length - 1]`, written `getLastD`, is the entry at
index `rest.length`. -/
theorem getLastD_cons_get (first : LineMapping) (rest : List LineMapping) :
    (first :: rest).getLastD first =
      (first :: rest).get ⟨rest.length, by simp⟩ := by
  induction rest generalizing first with
  | nil => rfl
  | cons b rest' ih =>
    rw [List.getLastD_cons first first (b :: rest')]
    exact ih b

/-- The linear scan returns the interpolated value at a bracketing index,
provided offsets are non-decreasing (which makes the bracketing pair the
first — and only — one the scan can hit). -/
theorem interpScan_bracket (q : ℚ) (l : List LineMapping) :
    l.Pairwise (fun a b => a.offsetTop ≤ b.offsetTop) →
    ∀ (i : Nat) (c n : LineMapping), l[i]? = some c → l[i + 1]? = some n →
    c.offsetTop ≤ q → q < n.offsetTop →
    interpScan q l = some (jsRound ((c.line : ℚ) +
      (q - c.offsetTop) / (n.offsetTop - c.offsetTop) * ((n.line : ℚ) - (c.line : ℚ)))) := by
  induction l with
  | nil =>
    intro _ i c n hc
    exact absurd hc (by simp)
  | cons a rest ih =>
    intro hoff i c n hc hn hlo hhi
    cases rest with
    | nil =>
      cases i with
      | zero => exact absurd hn (by simp)
      | succ j => exact absurd hc (by simp)
    | cons b rest' =>
      cases i with
      | zero =>
        have hca : a = c := by simpa using hc
        have hnb : b = n := by simpa using hn
        subst hca
        subst hnb
        simp only [interpScan]
        rw [if_pos ⟨hlo, hhi⟩]
      | succ j =>
        have hc' : (b :: rest')[j]? = some c := by simpa using hc
        have hn' : (b :: rest')[j + 1]? = some n := by simpa using hn
        have hcm : c ∈ b :: rest' := by
          obtain ⟨hlt, hget⟩ := List.getElem?_eq_some.1 hc'
          exact hget ▸ List.getElem_mem _
        have hboff : b.offsetTop ≤ c.offsetTop := by
          rcases List.mem_cons.1 hcm with hcb | hmem
          · rw [hcb]
          · exact (List.pairwise_cons.1 (List.Pairwise.of_cons hoff)).1 c hmem
        have hguard : ¬(a.offsetTop ≤ q ∧ q < b.offsetTop) := by
          rintro ⟨_, hqb⟩
          exact absurd hqb (not_lt.2 (le_trans hboff hlo))
        simp only [interpScan]
        rw [if_neg hguard]
        exact ih (List.Pairwise.of_cons hoff) j c n hc' hn' hlo hhi

/-- Correctness of the binary-search loop of `findMappingByLine` on a table
with strictly increasing lines: under the loop invariant (everything left of
`left` is below `target`, everything right of `right` is above it, and some
entry is below `target`), the loop returns the greatest entry whose line is
at most `target`. -/
theorem bsLine_correct (m : List LineMapping) (target : Int)
    (hline : m.Pairwise (fun a b => a.line < b.line)) (left right : Int) :
    0 ≤ left → right < (m.length : Int) →
    (∀ (idx : Nat) (hidx : idx < m.length), (idx : Int) < left →
        (m.get ⟨idx, hidx⟩).line < target) →
    (∀ (idx : Nat) (hidx : idx < m.length), right < (idx : Int) →
        target < (m.get ⟨idx, hidx⟩).line) →
    (∃ (i0 : Nat) (h0 : i0 < m.length), (m.get ⟨i0, h0⟩).line < target) →
    ∃ (k : Nat) (hk : k < m.length),
      bsLine m target left right = some (m.get ⟨k, hk⟩) ∧
      (m.get ⟨k, hk⟩).line ≤ target ∧
      ∀ (j : Nat) (hj : j < m.length), k < j → target < (m.get ⟨j, hj⟩).line := by
  have hpw : ∀ (i j : Fin m.length), i < j → (m.get i).line < (m.get j).line :=
    List.pairwise_iff_get.1 hline
  induction left, right using bsLine.induct m target with
  | case1 left right hlr mid hnone =>
    intro hl hr _ _ _
    have hmd : mid = (left + right) / 2 := rfl
    have hlen := List.getElem?_eq_none_iff.1 hnone
    omega
  | case2 left right hlr mid mapping hget heq =>
    intro hl hr _ _ _
    have hmd : mid = (left + right) / 2 := rfl
    obtain ⟨hmlt, hv⟩ := List.getElem?_eq_some.1 hget
    have hmidline : ∀ h : mid.toNat < m.length,
        (m.get ⟨mid.toNat, h⟩).line = mapping.line := by
      intro h
      simp only [List.get_eq_getElem]
      exact congrArg LineMapping.line hv
    refine ⟨mid.toNat, hmlt, ?_, ?_, ?_⟩
    · rw [bsLine, dif_pos hlr]
      have hget' : m[((left + right) / 2).toNat]? = some mapping := hget
      simp only [hget']
      rw [if_pos heq]
      simp only [List.get_eq_getElem]
      exact congrArg some hv.symm
    · rw [hmidline hmlt, heq]
    · intro j hj hjgt
      have hlt := hpw ⟨mid.toNat, hmlt⟩ ⟨j, hj⟩ hjgt
      rw [hmidline hmlt, heq] at hlt
      exact hlt
  | case3 left right hlr mid v hget hne hlt ih =>
    intro hl hr hlow hhigh hex
    have hmd : mid = (left + right) / 2 := rfl
    obtain ⟨hmlt, hv⟩ := List.getElem?_eq_some.1 hget
    have hmidline : ∀ h : mid.toNat < m.length,
        (m.get ⟨mid.toNat, h⟩).line = v.line := by
      intro h
      simp only [List.get_eq_getElem]
      exact congrArg LineMapping.line hv
    have hlow2 : ∀ (idx : Nat) (hidx : idx < m.length), (idx : Int) < mid + 1 →
        (m.get ⟨idx, hidx⟩).line < target := by
      intro idx hidx hidxlt
      have hle : idx ≤ mid.toNat := by omega
      rcases eq_or_lt_of_le hle with heq2 | hlt2
      · have hline2 : (m.get ⟨idx, hidx⟩).line = v.line := by
          subst heq2
          exact hmidline hidx
        omega
      · have h3 := hpw ⟨idx, hidx⟩ ⟨mid.toNat, hmlt⟩ hlt2
        rw [hmidline hmlt] at h3
        omega
    obtain ⟨k, hk, hbs, hle2, hgt2⟩ := ih (by omega) hr hlow2 hhigh hex
    refine ⟨k, hk, ?_, hle2, hgt2⟩
    rw [bsLine, dif_pos hlr]
    have hget' : m[((left + right) / 2).toNat]? = some v := hget
    simp only [hget']
    rw [if_neg hne, if_pos hlt]
    exact hbs
  | case4 left right hlr mid v hget hne hnlt ih =>
    intro hl hr hlow hhigh hex
    have hmd : mid = (left + right) / 2 := rfl
    obtain ⟨hmlt, hv⟩ := List.getElem?_eq_some.1 hget
    have hmidline : ∀ h : mid.toNat < m.length,
        (m.get ⟨mid.toNat, h⟩).line = v.line := by
      intro h
      simp only [List.get_eq_getElem]
      exact congrArg LineMapping.line hv
    have htv : target < v.line := by omega
    have hhigh2 : ∀ (idx : Nat) (hidx : idx < m.length), mid - 1 < (idx : Int) →
        target < (m.get ⟨idx, hidx⟩).line := by
      intro idx hidx hidxgt
      have hge : mid.toNat ≤ idx := by omega
      rcases eq_or_lt_of_le hge with heq2 | hlt2
      · have hline2 : (m.get ⟨idx, hidx⟩).line = v.line := by
          subst heq2
          exact hmidline hidx
        omega
      · have h3 := hpw ⟨mid.toNat, hmlt⟩ ⟨idx, hidx⟩ hlt2
        rw [hmidline hmlt] at h3
        omega
    obtain ⟨k, hk, hbs, hle2, hgt2⟩ := ih hl (by omega) hlow hhigh2 hex
    refine ⟨k, hk, ?_, hle2, hgt2⟩
    rw [bsLine, dif_pos hlr]
    have hget' : m[((left + right) / 2).toNat]? = some v := hget
    simp only [hget']
    rw [if_neg hne, if_neg hnlt]
    exact hbs
  | case5 left right hnle hneg =>
    intro hl hr hlow hhigh hex
    obtain ⟨i0, h0, hlt0⟩ := hex
    have := hhigh i0 h0 (by omega)
    omega
  | case6 left right hnle hpos =>
    intro hl hr hlow hhigh hex
    have hk : right.toNat < m.length := by omega
    refine ⟨right.toNat, hk, ?_, ?_, ?_⟩
    · rw [bsLine, dif_neg hnle, if_neg hpos, List.getElem?_eq_getElem hk]
      simp only [List.get_eq_getElem]
    · exact le_of_lt (hlow right.toNat hk (by omega))
    · intro j hj hjgt
      exact hhigh j hj (by omega)

/-! ## Claim theorems: Position Mapper lookups (C5, C6) -/

/-- Concrete run of the claimed example: query 3 on `[{1,0},{5,100},{10,300}]`
floor-matches `{1,0}` (the loop probes index 1, then 0, and exits returning
`mappings[right]` at `right = 0`). -/
theorem findMappingByLine_ex1 :
    findMappingByLine [⟨1, 0⟩, ⟨5, 100⟩, ⟨10, 300⟩] 3 = some ⟨1, 0⟩ := by
  simp only [findMappingByLine]
  norm_num [List.getLastD, List.length_cons, List.length_nil]
  rw [bsLine]
  norm_num
  rw [bsLine]
  norm_num
  rw [bsLine]
  norm_num

/-- Concrete run of the claimed example: query 7 floor-matches `{5,100}`. -/
theorem findMappingByLine_ex2 :
    findMappingByLine [⟨1, 0⟩, ⟨5, 100⟩, ⟨10, 300⟩] 7 = some ⟨5, 100⟩ := by
  simp only [findMappingByLine]
  norm_num [List.getLastD, List.length_cons, List.length_nil]
  rw [bsLine]
  norm_num
  rw [bsLine]
  norm_num [show Int.toNat 2 = 2 from rfl]
  rw [bsLine]
  norm_num

/-- C6: on a non-empty table with (strictly) ascending lines,
`findMappingByLine` returns the exact entry when one has the queried line,
clamps to the first entry below range and to the last entry above range, and
otherwise (query at or above the first line) the binary search returns the
greatest entry whose line is at most the query — a floor match with no
interpolation.  The last conjunct is the claim's concrete example. -/
theorem findMappingByLine_spec (first : LineMapping) (rest : List LineMapping) (target : Int)
    (hline : (first :: rest).Pairwise (fun a b => a.line < b.line)) :
    (∀ e ∈ first :: rest, e.line = target →
      findMappingByLine (first :: rest) target = some e) ∧
    (target < first.line → findMappingByLine (first :: rest) target = some first) ∧
    (((first :: rest).getLastD first).line < target →
      findMappingByLine (first :: rest) target = some ((first :: rest).getLastD first)) ∧
    (first.line ≤ target →
      ∃ (k : Nat) (hk : k < (first :: rest).length),
        findMappingByLine (first :: rest) target = some ((first :: rest).get ⟨k, hk⟩) ∧
        ((first :: rest).get ⟨k, hk⟩).line ≤ target ∧
        ∀ (j : Nat) (hj : j < (first :: rest).length), k < j →
          target < ((first :: rest).get ⟨j, hj⟩).line) ∧
    (findMappingByLine [⟨1, 0⟩, ⟨5, 100⟩, ⟨10, 300⟩] 3 = some ⟨1, 0⟩ ∧
      findMappingByLine [⟨1, 0⟩, ⟨5, 100⟩, ⟨10, 300⟩] 7 = some ⟨5, 100⟩) := by
  have hpw : ∀ (i j : Fin (first :: rest).length), i < j →
      ((first :: rest).get i).line < ((first :: rest).get j).line :=
    List.pairwise_iff_get.1 hline
  have hlast := getLastD_cons_get first rest
  have hlmem : (first :: rest).getLastD first ∈ first :: rest := by
    rw [hlast]
    exact List.get_mem _ _ _
  have hfl : first.line ≤ ((first :: rest).getLastD first).line := by
    rcases List.mem_cons.1 hlmem with hlf | hmem
    · rw [hlf]
    · exact le_of_lt ((List.pairwise_cons.1 hline).1 _ hmem)
  have hfloor : first.line ≤ target →
      ∃ (k : Nat) (hk : k < (first :: rest).length),
        findMappingByLine (first :: rest) target = some ((first :: rest).get ⟨k, hk⟩) ∧
        ((first :: rest).get ⟨k, hk⟩).line ≤ target ∧
        ∀ (j : Nat) (hj : j < (first :: rest).length), k < j →
          target < ((first :: rest).get ⟨j, hj⟩).line := by
    intro hft
    simp only [findMappingByLine]
    by_cases h1 : target ≤ first.line
    · rw [if_pos h1]
      have heq : first.line = target := le_antisymm hft h1
      refine ⟨0, by simp, rfl, le_of_eq heq, ?_⟩
      intro j hj hjgt
      have hj0 : first.line < ((first :: rest).get ⟨j, hj⟩).line :=
        hpw ⟨0, by simp⟩ ⟨j, hj⟩ hjgt
      omega
    · rw [if_neg h1]
      by_cases h2 : ((first :: rest).getLastD first).line ≤ target
      · rw [if_pos h2]
        refine ⟨rest.length, by simp, by rw [hlast], ?_, ?_⟩
        · rw [← hlast]
          exact h2
        · intro j hj hjgt
          simp only [List.length_cons] at hj
          omega
      · rw [if_neg h2]
        refine bsLine_correct (first :: rest) target hline 0
          (((first :: rest).length : Int) - 1) (le_refl 0) (by omega) ?_ ?_ ?_
        · intro idx hidx hneg
          exact absurd hneg (by omega)
        · intro idx hidx hgt
          exact absurd hgt (by omega)
        · refine ⟨0, by simp, ?_⟩
          show first.line < target
          omega
  refine ⟨?_, ?_, ?_, hfloor, ?_⟩
  · -- exact entry
    intro e he hel
    by_cases h1 : target ≤ first.line
    · rcases List.mem_cons.1 he with rfl | hmem
      · simp only [findMappingByLine]
        rw [if_pos h1]
      · have := (List.pairwise_cons.1 hline).1 e hmem
        omega
    · obtain ⟨k, hk, hbs, hle, hgt⟩ := hfloor (by omega)
      obtain ⟨⟨ie, hie⟩, hegets⟩ := List.mem_iff_get.1 he
      have hiek : ie = k := by
        by_contra hne
        rcases Nat.lt_or_ge ie k with hlt | hge
        · have h3 := hpw ⟨ie, hie⟩ ⟨k, hk⟩ hlt
          rw [hegets] at h3
          omega
        · have h3 := hgt ie hie (by omega)
          rw [hegets] at h3
          omega
      subst hiek
      rw [← hegets]
      exact hbs
  · -- below range
    intro h
    simp only [findMappingByLine]
    rw [if_pos (le_of_lt h)]
  · -- above range
    intro h
    simp only [findMappingByLine]
    rw [if_neg (by omega), if_pos (le_of_lt h)]
  · -- concrete example
    exact ⟨findMappingByLine_ex1, findMappingByLine_ex2⟩

/-- Witness for C6: the claim's concrete table with queries 3 and 7. -/
theorem findMappingByLine_spec_witness :
    findMappingByLine [⟨1, 0⟩, ⟨5, 100⟩, ⟨10, 300⟩] 3 = some ⟨1, 0⟩ ∧
    findMappingByLine [⟨1, 0⟩, ⟨5, 100⟩, ⟨10, 300⟩] 7 = some ⟨5, 100⟩ :=
  (findMappingByLine_spec ⟨1, 0⟩ [⟨5, 100⟩, ⟨10, 300⟩] 3
    (by norm_num [List.pairwise_cons])).2.2.2.2

/-- C5: on a non-empty table with ascending lines and (strictly) ascending
offsets, `findLineByScrollTop` clamps to the first line at or below the first
offset, clamps to the last line at or above the last offset, and otherwise
returns the query linearly interpolated between the bracketing pair of
entries, rounded to the nearest integer.  The last conjunct is the claim's
concrete example: the table `[{1,0},{5,100},{10,300}]` at offset 200 yields
line 8. -/
theorem findLineByScrollTop_spec (first : LineMapping) (rest : List LineMapping) (q : ℚ)
    (_hline : (first :: rest).Pairwise lineLe)
    (hoff : (first :: rest).Pairwise (fun a b => a.offsetTop < b.offsetTop)) :
    (q ≤ first.offsetTop → findLineByScrollTop (first :: rest) q = first.line) ∧
    (((first :: rest).getLastD first).offsetTop ≤ q →
      findLineByScrollTop (first :: rest) q = ((first :: rest).getLastD first).line) ∧
    (∀ (i : Nat) (c n : LineMapping), (first :: rest)[i]? = some c →
      (first :: rest)[i + 1]? = some n → c.offsetTop ≤ q → q < n.offsetTop →
      first.offsetTop < q → q < ((first :: rest).getLastD first).offsetTop →
      findLineByScrollTop (first :: rest) q =
        jsRound ((c.line : ℚ) + (q - c.offsetTop) / (n.offsetTop - c.offsetTop) *
          ((n.line : ℚ) - (c.line : ℚ)))) ∧
    findLineByScrollTop [⟨1, 0⟩, ⟨5, 100⟩, ⟨10, 300⟩] 200 = 8 := by
  have hlmem : (first :: rest).getLastD first ∈ first :: rest := by
    rw [getLastD_cons_get first rest]
    exact List.get_mem _ _ _
  refine ⟨?_, ?_, ?_, ?_⟩
  · intro h
    simp only [findLineByScrollTop]
    rw [if_pos h]
  · intro h
    simp only [findLineByScrollTop]
    by_cases h1 : q ≤ first.offsetTop
    · rw [if_pos h1]
      rcases List.mem_cons.1 hlmem with hlf | hmem
      · rw [hlf]
      · have hflt := (List.pairwise_cons.1 hoff).1 _ hmem
        exact absurd hflt (not_lt.2 (le_trans h h1))
    · rw [if_neg h1, if_pos h]
  · intro i c n hc hn hlo hhi hq1 hq2
    simp only [findLineByScrollTop]
    rw [if_neg (not_le.2 hq1), if_neg (not_le.2 hq2),
      interpScan_bracket q (first :: rest) (hoff.imp le_of_lt) i c n hc hn hlo hhi]
    rfl
  · norm_num [findLineByScrollTop, interpScan, jsRound, List.getLastD]

/-- Witness for C5: the claim's concrete table queried at offset 200. -/
theorem findLineByScrollTop_spec_witness :
    findLineByScrollTop [⟨1, 0⟩, ⟨5, 100⟩, ⟨10, 300⟩] 200 = 8 :=
  (findLineByScrollTop_spec ⟨1, 0⟩ [⟨5, 100⟩, ⟨10, 300⟩] 200
    (by norm_num [List.pairwise_cons, lineLe])
    (by norm_num [List.pairwise_cons])).2.2.2

end MarkdownWorld
